import Mathlib

namespace AIDispatcher

/-! ### Tool type constants (pkg/trackers, `ToolType`) -/

def ClaudeCodeTool : String := "claude-code"

def CodexTool : String := "codex"

def OpenCodeTool : String := "opencode"

/-- Go `analyzers.ComplexityAnalysis` (pkg/analyzers, part_005 lines 23-29).
`float64` fields are modelled as `ℚ`, `int` as `ℤ`, `ComplexityLevel` as its
underlying string. -/
structure ComplexityAnalysis where
  level : String
  tokens : ℤ
  reasoning : String
  confidence : ℚ
  method : String

deriving DecidableEq

/-- Go `router.CostEstimate` (pkg/router/calculator.go lines 21-31).
`float64` fields are modelled as `ℚ`. -/
structure CostEstimate where
  tool : String
  toolName : String
  estimatedCost : ℚ
  estimatedTokens : ℤ
  availablePercent : ℚ
  currentCost5h : ℚ
  willExceedLimit : Bool
  isAvailable : Bool
  confidence : ℚ

deriving DecidableEq

/-- The `less` closure passed to `sort.Slice` inside `SortEstimates`
(pkg/router/calculator.go lines 126-154), translated clause by clause:
available first, then not-over-limit first, then free (`cost == 0`) before
paid, then cheaper first, then higher available percentage first. -/
def estLess (a b : CostEstimate) : Bool :=
  if a.isAvailable ≠ b.isAvailable then a.isAvailable
  else if a.willExceedLimit ≠ b.willExceedLimit then !a.willExceedLimit
  else if a.estimatedCost = 0 ∧ b.estimatedCost ≠ 0 then true
  else if a.estimatedCost ≠ 0 ∧ b.estimatedCost = 0 then false
  else if a.estimatedCost ≠ b.estimatedCost then decide (a.estimatedCost < b.estimatedCost)
  else decide (b.availablePercent < a.availablePercent)

/-- The key the comparator `estLess` orders by, as a lexicographic tuple:
(availability rank, over-limit rank, free rank, cost, negated percent). -/
def sortKey (a : CostEstimate) : ℕ ×ₗ (ℕ ×ₗ (ℕ ×ₗ (ℚ ×ₗ ℚ))) :=
  toLex ((if a.isAvailable then 0 else 1),
    toLex ((if a.willExceedLimit then 1 else 0),
      toLex ((if a.estimatedCost = 0 then 0 else 1),
        toLex (a.estimatedCost, -a.availablePercent))))

/-- The total preorder actually used for sorting: `a` may come before `b`
exactly when the comparator does not put `b` strictly before `a`. -/
def estLE (a b : CostEstimate) : Prop := estLess b a = false

instance : DecidableRel estLE := fun a b => inferInstanceAs (Decidable (_ = false))

/-- Go `SortEstimates` (pkg/router/calculator.go lines 120-157).  The Go code
copies the slice and sorts it with `sort.Slice` under `estLess`; the sort is
modelled by a deterministic insertion sort under the induced total preorder
`estLE` (Go's sort is also deterministic for a fixed input; it may differ
from a stable sort only in the relative order of estimates whose `sortKey`s
tie, which no claim depends on). -/
def SortEstimates (estimates : List CostEstimate) : List CostEstimate :=
  estimates.insertionSort estLE

/-- Go `FilterAvailable` (pkg/router/calculator.go lines 169-178): retains only
estimates with `IsAvailable && !WillExceedLimit`. -/
def FilterAvailable (estimates : List CostEstimate) : List CostEstimate :=
  estimates.filter (fun e => e.isAvailable && !e.willExceedLimit)

/-- Go `GetBestEstimate` (pkg/router/calculator.go lines 160-167). -/
def GetBestEstimate (estimates : List CostEstimate) : Option CostEstimate :=
  if estimates.isEmpty then none
  else (SortEstimates estimates).head?

/-! ### String helpers

The Go code uses `strings` and `fmt` from the standard library.  They are
modelled here by executable functions on `List Char` / `String`.  Numeric
rendering (`fmt` verbs `%.1f`, `%.3f`, `%d`) is modelled by truncating
decimal rendering; no claim depends on the rendered digits. -/

/-- ASCII lower-casing of one character (models `strings.ToLower`; the tool
names being matched are ASCII). -/
def lowerChar (c : Char) : Char :=
  if 'A' ≤ c ∧ c ≤ 'Z' then Char.ofNat (c.toNat + 32) else c

/-- Models `unicode.IsSpace` on the ASCII range used by `strings.TrimSpace`. -/
def isSpaceChar (c : Char) : Bool :=
  c = ' ' || c = '\t' || c = '\n' || c = '\r' || c = '\x0b' || c = '\x0c'

/-- Models `strings.ToLower`. -/
def strToLower (s : String) : String := ⟨s.data.map lowerChar⟩

/-- Models `strings.TrimSpace`. -/
def strTrim (s : String) : String :=
  ⟨((s.data.dropWhile isSpaceChar).reverse.dropWhile isSpaceChar).reverse⟩

def digitChar (n : ℕ) : Char := Char.ofNat (48 + n % 10)

/-- Decimal digits of a natural number, fuel-recursive so that it reduces in
the kernel. -/
def natToStrAux : ℕ → ℕ → List Char
  | 0, _ => []
  | fuel+1, n => if n < 10 then [digitChar n] else natToStrAux fuel (n / 10) ++ [digitChar (n % 10)]

def natToStr (n : ℕ) : String := ⟨natToStrAux (n + 1) n⟩

def intToStr (i : ℤ) : String :=
  if i < 0 then "-" ++ natToStr (-i).toNat else natToStr i.toNat

/-- Left-pad with zeros to `w` digits. -/
def padZeros (w : ℕ) (s : String) : String :=
  ⟨List.replicate (w - s.data.length) '0' ++ s.data⟩

/-- Models `fmt.Sprintf` with verb `%.df` (digits truncated rather than
rounded; no claim depends on the digits). -/
def fmtFixed (d : ℕ) (q : ℚ) : String :=
  let sign := if q.num < 0 then "-" else ""
  let scaled : ℕ := q.num.natAbs * 10 ^ d / q.den
  sign ++ natToStr (scaled / 10 ^ d) ++ "." ++ padZeros d (natToStr (scaled % 10 ^ d))

/-- Byte-wise prefix test on character lists. -/
def isPrefixL : List Char → List Char → Bool
  | [], _ => true
  | _ :: _, [] => false
  | p :: ps, c :: cs => p == c && isPrefixL ps cs

/-- Byte-wise substring test on character lists (models `strings.Contains`). -/
def containsL (pat : List Char) : List Char → Bool
  | [] => isPrefixL pat []
  | c :: rest => isPrefixL pat (c :: rest) || containsL pat rest

/-- Go `strContains s pat` is true when `pat` occurs as a contiguous substring
of `s`. -/
def strContains (s pat : String) : Bool := containsL pat.data s.data

/-! ### The decision engine (pkg/router/engine.go) -/

/-- Go `router.RoutingDecision` (pkg/router/engine.go lines 12-20).  The Go
`SelectedCost *CostEstimate` pointer is always set by both construction
sites, so it is modelled as a plain field. -/
structure RoutingDecision where
  selectedTool : String
  selectedName : String
  reason : String
  alternatives : List CostEstimate
  selectedCost : CostEstimate
  complexity : ComplexityAnalysis
  wasForced : Bool

deriving DecidableEq

/-- Go `FormatCost` (pkg/router/calculator.go lines 181-186). -/
def FormatCost (cost : ℚ) : String :=
  if cost = 0 then "$0.000" else "$" ++ fmtFixed 3 cost

/-- Go `ValidateToolType` (pkg/trackers, part_004 lines 224-238). -/
def ValidateToolType (toolType : String) : Except String String :=
  let normalized := strToLower (strTrim toolType)
  if normalized = ClaudeCodeTool then .ok ClaudeCodeTool
  else if normalized = CodexTool then .ok CodexTool
  else if normalized = OpenCodeTool then .ok OpenCodeTool
  else .error "invalid tool type: must be one of [claude-code, codex, opencode]"

/-- Go `buildReason` (pkg/router/engine.go lines 126-180), translated part by
part; the `for i := 1; i < len && i < 3` loop over alternatives becomes
`drop 1 |>.take 2`. -/
def buildReason (selected : CostEstimate) (analysis : ComplexityAnalysis)
    (allEstimates : List CostEstimate) : String :=
  let p1 :=
    if selected.estimatedCost = 0 then
      "Selected " ++ selected.toolName ++ " (free tier) with " ++
        fmtFixed 1 selected.availablePercent ++ "% capacity available"
    else
      "Selected " ++ selected.toolName ++ " (est. cost: " ++
        FormatCost selected.estimatedCost ++ ") with " ++
        fmtFixed 1 selected.availablePercent ++ "% capacity available"
  let p2 := "Task complexity: " ++ analysis.level ++ " (~" ++ intToStr analysis.tokens ++
    " tokens, confidence: " ++ fmtFixed 1 (analysis.confidence * 100) ++
    "%, method: " ++ analysis.method ++ ")"
  let parts := [p1, p2] ++
    (if analysis.reasoning ≠ "" then ["Reason: " ++ analysis.reasoning] else [])
  let altNames := ((allEstimates.drop 1).take 2).map (fun alt =>
    if alt.estimatedCost = 0 then alt.toolName ++ " (free)"
    else alt.toolName ++ " (" ++ FormatCost alt.estimatedCost ++ ")")
  let parts := parts ++
    (if allEstimates.length > 1 ∧ altNames ≠ [] then
      ["Alternatives: " ++ String.intercalate ", " altNames] else [])
  String.intercalate ". " parts

/-- The constant availability warning text of `handleForcedTool`. -/
def lowAvailabilityWarning : String := "WARNING: Tool has low availability"

/-- The constant over-limit warning text of `handleForcedTool`. -/
def exceedLimitWarning : String := "WARNING: This may exceed usage limits"

/-- Go `handleForcedTool` (pkg/router/engine.go lines 77-123).  The Go loop
assigns `selected` on every estimate whose tool matches (so the last match
wins) and appends every non-matching estimate to `alternatives`; this is
`filter` + `getLast?` and `filter` respectively. -/
def handleForcedTool (forceTool : String) (estimates : List CostEstimate)
    (analysis : ComplexityAnalysis) : Except String RoutingDecision :=
  match ValidateToolType forceTool with
  | .error e => .error ("invalid forced tool: " ++ e)
  | .ok toolType =>
    let selected? := (estimates.filter (fun e => e.tool == toolType)).getLast?
    let alternatives := estimates.filter (fun e => e.tool != toolType)
    match selected? with
    | none => .error ("forced tool " ++ forceTool ++ " not found in available tools")
    | some selected =>
      let reason := "Using " ++ selected.toolName ++ " (forced by --force flag)" ++
        (if !selected.isAvailable then
          " - " ++ lowAvailabilityWarning ++ " (" ++ fmtFixed 1 selected.availablePercent ++ "%)"
        else "") ++
        (if selected.willExceedLimit then " - " ++ exceedLimitWarning else "")
      .ok { selectedTool := selected.tool, selectedName := selected.toolName,
            reason := reason, alternatives := alternatives, selectedCost := selected,
            complexity := analysis, wasForced := true }

/-- The `NoWorkersAvailable` error message (pkg/router/engine.go line 56). -/
def noToolsAvailableErr : String :=
  "no tools available - all tools have exceeded their limits or are unavailable"

/-- Go `MakeDecision` (pkg/router/engine.go lines 38-75).  The external
`CalculateCosts` collaborator is supplied as the already-computed
`estimates` list; its only failure mode is having produced no estimates
(pkg/router/calculator.go lines 58-60), modelled by the empty-list check. -/
def MakeDecision (estimates : List CostEstimate) (analysis : ComplexityAnalysis)
    (forceTool : String) : Except String RoutingDecision :=
  if estimates = [] then
    .error "failed to calculate costs: no tools available for cost calculation"
  else if forceTool ≠ "" then handleForcedTool forceTool estimates analysis
  else
    let available := FilterAvailable estimates
    if available = [] then .error noToolsAvailableErr
    else
      match SortEstimates available with
      | [] => .error noToolsAvailableErr -- unreachable: sorting a non-empty list
      | selected :: rest =>
        .ok { selectedTool := selected.tool, selectedName := selected.toolName,
              reason := buildReason selected analysis (selected :: rest),
              alternatives := rest, selectedCost := selected,
              complexity := analysis, wasForced := false }

deriving instance DecidableEq for Except

/-! ### Concrete sample data used by witnesses -/

def eFree : CostEstimate :=
  { tool := "codex", toolName := "Codex", estimatedCost := 0, estimatedTokens := 100,
    availablePercent := 50, currentCost5h := 0, willExceedLimit := false,
    isAvailable := true, confidence := 1 }

def ePaid : CostEstimate :=
  { tool := "claude-code", toolName := "Claude Code", estimatedCost := 1,
    estimatedTokens := 100, availablePercent := 80, currentCost5h := 0,
    willExceedLimit := false, isAvailable := true, confidence := 1 }

/-- A low-availability estimate (2% < threshold), as in the spec's
threshold-enforcement scenario. -/
def eLow : CostEstimate :=
  { tool := "claude-code", toolName := "Claude Code", estimatedCost := 1,
    estimatedTokens := 100, availablePercent := 2, currentCost5h := 0,
    willExceedLimit := true, isAvailable := false, confidence := 1 }

def anAnalysis : ComplexityAnalysis :=
  { level := "simple", tokens := 100, reasoning := "", confidence := 1, method := "heuristic" }

def dDefault : RoutingDecision :=
  { selectedTool := "", selectedName := "", reason := "", alternatives := [],
    selectedCost := eFree, complexity := anAnalysis, wasForced := false }

/-- The decision extracted in the C1/C3 witness scenario. -/
def dFreePaid : RoutingDecision :=
  (MakeDecision [ePaid, eFree] anAnalysis "").toOption.getD dDefault

/-! ### Claim theorems -/

/-- Two estimates identical except for their tool identity: the comparator
cannot separate them. -/
def estTieA : CostEstimate :=
  { tool := "claude-code", toolName := "Claude Code", estimatedCost := 0,
    estimatedTokens := 100, availablePercent := 50, currentCost5h := 0,
    willExceedLimit := false, isAvailable := true, confidence := 1 }

def estTieB : CostEstimate := { estTieA with tool := "codex", toolName := "Codex" }

/-- The decision extracted in the C7 witness scenario: forcing the
unavailable, over-limit `claude-code` estimate. -/
def dForcedLow : RoutingDecision :=
  (MakeDecision [eLow, eFree] anAnalysis "claude-code").toOption.getD dDefault

/-! ### Stream parsers (pkg/delegators/stream.go and codex_stream_parser.go)

Both parsers read the worker's stdout line by line through `bufio.Scanner`,
opportunistically decode each line with `json.Unmarshal` into
`map[string]interface{}`, and accumulate text.  `json.Unmarshal` is Go
standard library; a transport line is therefore modelled as its raw bytes
together with the unmarshal result. -/

/-- A decoded JSON value as produced by `json.Unmarshal` into
`map[string]interface{}` (numbers as `ℚ`). -/
inductive JVal where
  | null
  | jbool (b : Bool)
  | num (q : ℚ)
  | str (s : String)
  | arr (items : List JVal)
  | obj (fields : List (String × JVal))

/-- Go `event["key"].(string)`: field lookup plus string type assertion. -/
def JVal.getStr : JVal → String → Option String
  | .obj fields, key =>
    match fields.lookup key with
    | some (.str s) => some s
    | _ => none
  | _, _ => none

/-- Go `event["key"].(map[string]interface{})`. -/
def JVal.getObj : JVal → String → Option JVal
  | .obj fields, key =>
    match fields.lookup key with
    | some (.obj f) => some (.obj f)
    | _ => none
  | _, _ => none

/-- Go `event["key"].([]interface{})`. -/
def JVal.getArr : JVal → String → Option (List JVal)
  | .obj fields, key =>
    match fields.lookup key with
    | some (.arr items) => some items
    | _ => none
  | _, _ => none

/-- One transport line delivered by the scanner: its raw bytes and the
result of `json.Unmarshal` on them (`none` when the bytes are not valid
JSON). -/
structure TLine where
  raw : String
  decoded : Option JVal

/-- The mutable state of either parser: the pending `lineBuffer` and the
`fullOutput` accumulator. -/
structure ParserState where
  lineBuffer : String
  fullOutput : String

deriving DecidableEq

/-- Split a character list at every newline; the last element is the
remainder after the final newline. -/
def splitNl : List Char → List (List Char)
  | [] => [[]]
  | c :: rest =>
    let r := splitNl rest
    if c = '\n' then [] :: r
    else (c :: r.headD []) :: r.tail

/-- Go `processText` (stream.go lines 104-124, identical in
codex_stream_parser.go lines 112-132): append `text` to the line buffer,
then repeatedly flush everything up to each newline to the output (with the
newline re-appended) while the final partial segment stays buffered.  The
net effect of the flush loop is this newline split. -/
def processText (st : ParserState) (text : String) : ParserState :=
  let parts := splitNl (st.lineBuffer.data ++ text.data)
  { lineBuffer := ⟨parts.getLastD []⟩,
    fullOutput := st.fullOutput ++ ⟨(parts.dropLast.map (fun l => l ++ ['\n'])).flatten⟩ }

/-- Extract the `text_delta` text of a `stream_event` line
(stream.go lines 51-63). -/
def streamEventText (event : JVal) : Option String :=
  match event.getObj "event" with
  | none => none
  | some streamEvent =>
    match streamEvent.getStr "type" with
    | none => none
    | some eventSubType =>
      if eventSubType = "content_block_delta" then
        match streamEvent.getObj "delta" with
        | none => none
        | some delta =>
          match delta.getStr "type" with
          | none => none
          | some deltaType =>
            if deltaType = "text_delta" then
              match delta.getStr "text" with
              | none => none
              | some text => if text ≠ "" then some text else none
            else none
      else none

/-- One scanner-loop iteration of `StreamParser.Parse` (stream.go lines
33-88).  An empty line is skipped; a line that fails to decode, or whose
decoded value has no string `type`, is processed as plain text; otherwise
the three sequential `if` blocks for `stream_event`, `assistant` and
`result` apply (at most one fires since `type` is a single string). -/
def streamParserLine (st : ParserState) (t : TLine) : ParserState :=
  if t.raw = "" then st
  else
    match t.decoded with
    | none => processText st t.raw
    | some event =>
      match event.getStr "type" with
      | none => processText st t.raw
      | some eventType =>
        let st1 :=
          if eventType = "stream_event" then
            match streamEventText event with
            | some text => processText st text
            | none => st
          else st
        let st2 :=
          if eventType = "assistant" then
            match event.getObj "message" with
            | some message =>
              match message.getArr "content" with
              | some content =>
                content.foldl (fun s item =>
                  match item.getStr "text" with
                  | some text =>
                    if text ≠ "" then
                      (if s.lineBuffer = "" then processText s text else s)
                    else s
                  | none => s) st1
              | none => st1
            | none => st1
          else st1
        if eventType = "result" then
          match event.getStr "result" with
          | some r =>
            if r ≠ "" then (if st2.lineBuffer = "" then processText st2 r else st2)
            else st2
          | none => st2
        else st2

/-- Go `StreamParser.Parse` (stream.go lines 29-102) over the transport lines
the scanner delivered before stopping; `readErr` records whether the scanner
stopped with a read error rather than EOF.  Returns the accumulated output
and whether a non-nil error was returned: on a read error the function
returns `("", error)`; otherwise any residual buffered line is flushed. -/
def streamParserParse (lines : List TLine) (readErr : Bool) : String × Bool :=
  let st := lines.foldl streamParserLine ⟨"", ""⟩
  if readErr then ("", true)
  else if st.lineBuffer ≠ "" then (st.fullOutput ++ st.lineBuffer, false)
  else (st.fullOutput, false)

/-- Go `extractItemContent` (codex_stream_parser.go lines 134-150): substantial
(`len > 200`) item text plus the aggregated output of command executions. -/
def extractItemContent (st : ParserState) (item : JVal) : ParserState :=
  let st1 :=
    match item.getStr "text" with
    | some text =>
      if text ≠ "" ∧ 200 < text.length then processText st (text ++ "\n") else st
    | none => st
  match item.getStr "type" with
  | some itemType =>
    if itemType = "command_execution" then
      match item.getStr "aggregated_output" with
      | some out => if out ≠ "" then processText st1 out else st1
      | none => st1
    else st1
  | none => st1

/-- One scanner-loop iteration of `CodexStreamParser.Parse`
(codex_stream_parser.go lines 33-96).  Empty, undecodable and type-less
lines are skipped outright (`continue`); the `switch` on the event type is
the if-chain below, with unrecognized types falling through to the
unchanged state. -/
def codexParserLine (st : ParserState) (t : TLine) : ParserState :=
  if t.raw = "" then st
  else
    match t.decoded with
    | none => st
    | some event =>
      match event.getStr "type" with
      | none => st
      | some eventType =>
        if eventType = "delta" then
          match event.getObj "delta" with
          | some delta =>
            match delta.getStr "content" with
            | some content => if content ≠ "" then processText st content else st
            | none => st
          | none => st
        else if eventType = "message" then
          match event.getStr "content" with
          | some contentRaw =>
            if contentRaw ≠ "" then
              (if st.lineBuffer = "" then processText st contentRaw else st)
            else st
          | none =>
            match event.getArr "content" with
            | some contentArray =>
              contentArray.foldl (fun s item =>
                match item with
                | .str itemStr =>
                  if itemStr ≠ "" then
                    (if s.lineBuffer = "" then processText s itemStr else s)
                  else s
                | _ => s) st
            | none => st
        else if eventType = "item.completed" then
          match event.getObj "item" with
          | some item => extractItemContent st item
          | none => st
        else if eventType = "item.started" then
          match event.getObj "item" with
          | some item =>
            match item.getStr "command" with
            | some cmd => if cmd ≠ "" then processText st ("$ " ++ cmd) else st
            | none => st
          | none => st
        else if eventType = "result" then
          match event.getStr "result" with
          | some r =>
            if r ≠ "" then (if st.lineBuffer = "" then processText st r else st)
            else st
          | none => st
        else if eventType = "error" then
          match event.getStr "error" with
          | some errorMsg =>
            if errorMsg ≠ "" then processText st ("[Error] " ++ errorMsg) else st
          | none => st
        else st

/-- Go `CodexStreamParser.Parse` (codex_stream_parser.go lines 29-110), same
contract as `streamParserParse`. -/
def codexParserParse (lines : List TLine) (readErr : Bool) : String × Bool :=
  let st := lines.foldl codexParserLine ⟨"", ""⟩
  if readErr then ("", true)
  else if st.lineBuffer ≠ "" then (st.fullOutput ++ st.lineBuffer, false)
  else (st.fullOutput, false)

/-! Sample transport lines for the parser witnesses. -/

/-- A malformed transport line (invalid JSON). -/
def badLine : TLine := { raw := "\x7bnot json", decoded := none }

/-- A Codex `delta` line carrying `"hello\n"`. -/
def codexDelta1 : TLine :=
  { raw := "\x7b\"type\":\"delta\",\"delta\":\x7b\"content\":\"hello\\n\"\x7d\x7d",
    decoded := some (.obj [("type", .str "delta"),
      ("delta", .obj [("content", .str "hello\n")])]) }

/-- A Codex `delta` line carrying `"world"`. -/
def codexDelta2 : TLine :=
  { raw := "\x7b\"type\":\"delta\",\"delta\":\x7b\"content\":\"world\"\x7d\x7d",
    decoded := some (.obj [("type", .str "delta"),
      ("delta", .obj [("content", .str "world")])]) }

/-- A Claude `stream_event` text delta carrying `"hello\n"`. -/
def claudeDelta1 : TLine :=
  { raw := "\x7b\"type\":\"stream_event\"\x7d",
    decoded := some (.obj [("type", .str "stream_event"),
      ("event", .obj [("type", .str "content_block_delta"),
        ("delta", .obj [("type", .str "text_delta"), ("text", .str "hello\n")])])]) }

/-! ### Council session and orchestrator

The channel-based orchestrator of src/unnamed/part_009 (the version
`pkg/council/planner.go` builds on; `pkg/council/orchestrator.go` is an
older snapshot of the same file with a sequential Broadcast and a
substring-based DetectTool).  The external `delegator.Query` calls and the
mock response picker are supplied as oracles; prompt construction
(`buildCouncilPrompt`) only reads the session, so it does not affect the
frame-effect and broadcast claims. -/

/-- Go `council.Message` (part_009 session lines 458-462); the wall-clock
`Time` field is not modelled.  `sender` is the Go `From` field. -/
structure Message where
  sender : String
  content : String

deriving DecidableEq

/-- Go `council.Session` (part_009 session lines 465-469); `StartedAt` (wall
clock) is not modelled. -/
structure Session where
  history : List Message
  lastTool : String

deriving DecidableEq

/-- Go `Session.AddMessage` (part_009 session lines 480-486). -/
def Session.addMessage (s : Session) (sender content : String) : Session :=
  { s with history := s.history ++ [{ sender := sender, content := content }] }

/-- Go `Session.SetLastTool` (part_009 session lines 489-491). -/
def Session.setLastTool (s : Session) (tool : String) : Session :=
  { s with lastTool := tool }

/-- Go `Orchestrator.Broadcast`/`Query` responses (part_009 lines 30-34);
`Error error` is modelled as `Option String`. -/
structure Response where
  tool : String
  content : String
  error : Option String

deriving DecidableEq

/-- The delegator keys installed by `NewOrchestrator` (part_009 lines
46-77): `GetAllDelegators` (part_008 lines 33-40) returns the Claude Code,
Codex and OpenCode delegators, keyed `claude`, `codex`, `opencode`. -/
def hasDelegator (tool : String) : Bool :=
  tool == "claude" || tool == "codex" || tool == "opencode"

/-- The hard-coded broadcast tool list (part_009 line 166). -/
def broadcastToolNames : List String := ["claude", "codex", "opencode"]

/-- The per-tool body of `Broadcast` (part_009 lines 150-211), serialized in
tool order.  In the source each available tool's query runs in its own
goroutine and sends its `Response` on the output channel as it finishes;
the wait-group closes the channel only after every launched query has sent.
The model returns the complete list of responses (one linearization of the
channel contents — arrival order across tools is nondeterministic in the
source and no claim depends on it) together with the final session.
`available` models the `availableTools` map (a missing key reads as
`false`), `queryRes` the external `delegator.Query` outcome for this
broadcast's shared prompt, and `mockResp` the mock picker. -/
def broadcastLoop (useMocks : Bool) (available : String → Bool)
    (mockResp : String → String) (queryRes : String → Except String String) :
    List String → Session → List Response × Session
  | [], sess => ([], sess)
  | toolName :: rest, sess =>
    if useMocks then
      let response := mockResp toolName
      let next := broadcastLoop useMocks available mockResp queryRes rest
        (sess.addMessage toolName response)
      ({ tool := toolName, content := response, error := none } :: next.1, next.2)
    else if !(available toolName) then
      broadcastLoop useMocks available mockResp queryRes rest sess
    else if hasDelegator toolName then
      match queryRes toolName with
      | .error err =>
        let next := broadcastLoop useMocks available mockResp queryRes rest sess
        ({ tool := toolName, content := "[Error: " ++ err ++ "]", error := some err } ::
          next.1, next.2)
      | .ok content =>
        let next := broadcastLoop useMocks available mockResp queryRes rest
          (sess.addMessage toolName content)
        ({ tool := toolName, content := content, error := none } :: next.1, next.2)
    else broadcastLoop useMocks available mockResp queryRes rest sess

/-- Go `Orchestrator.Broadcast` (part_009 lines 150-211).  The `message`
argument only enters the shared prompt, which the `queryRes` oracle
absorbs. -/
def Broadcast (useMocks : Bool) (available : String → Bool)
    (mockResp : String → String) (queryRes : String → Except String String)
    (sess : Session) (message : String) : List Response × Session :=
  let _ := message
  broadcastLoop useMocks available mockResp queryRes broadcastToolNames sess

/-- Go `Orchestrator.Query` (part_009 lines 213-266): sets the session's last
tool first, then checks availability (unless mocked), then dispatches to the
delegator; only a successful query appends the reply to the history. -/
def Query (useMocks : Bool) (available : String → Bool) (mockResp : String → String)
    (queryRes : String → Except String String) (sess : Session) (tool message : String) :
    Session × Response :=
  let _ := message
  let sess1 := sess.setLastTool tool
  if !useMocks && !(available tool) then
    (sess1, { tool := tool, content := "",
              error := some ("tool '" ++ tool ++ "' is not available") })
  else if useMocks then
    let response := mockResp tool
    (sess1.addMessage tool response,
      { tool := tool, content := response, error := none })
  else if hasDelegator tool then
    match queryRes tool with
    | .error err => (sess1, { tool := tool, content := "", error := some err })
    | .ok content =>
      (sess1.addMessage tool content,
        { tool := tool, content := content, error := none })
  else (sess1, { tool := tool, content := "",
                 error := some ("tool '" ++ tool ++ "' not found") })

/-- Availability map and query outcomes for the C6 witness: all three tools
available, Codex failing. -/
def avAll : String → Bool := fun t => t == "claude" || t == "codex" || t == "opencode"

def qrOneError : String → Except String String := fun t =>
  if t == "codex" then .error "boom" else .ok ("reply from " ++ t)

/-! ### Tool-mention detection (part_009 lines 19-27 and 384-404)

`toolPatterns` maps each tool key to the regex `(?i)\b<tool>\b`; `DetectTool`
keeps the strictly smallest `FindStringIndex` position.  The word-boundary
matcher is modelled character by character: `\w` is `[0-9A-Za-z_]`, a match
needs a non-word character (or the string edge) on both sides, and
`FindStringIndex` returns the leftmost match position.  Character positions
are used instead of byte positions; their order agrees. -/

/-- Go `\w` of Go regexp (ASCII). -/
def isWordChar (c : Char) : Bool :=
  ('a' ≤ c && c ≤ 'z') || ('A' ≤ c && c ≤ 'Z') || ('0' ≤ c && c ≤ '9') || c = '_'

/-- Case-insensitive match of `w` against a prefix of `s`, returning the
rest of `s` (models `(?i)` literal matching). -/
def dropCaseI : List Char → List Char → Option (List Char)
  | [], s => some s
  | _ :: _, [] => none
  | p :: ps, c :: cs => if lowerChar c = lowerChar p then dropCaseI ps cs else none

/-- Whether `(?i)\b w \b` matches at the head of `s`, where `prev` is the
character immediately before this position (`none` at the string start). -/
def wordAtHead (w : List Char) (prev : Option Char) (s : List Char) : Bool :=
  (match prev with
   | none => true
   | some p => !isWordChar p) &&
  (match dropCaseI w s with
   | none => false
   | some [] => true
   | some (c :: _) => !isWordChar c)

/-- Position of the leftmost `(?i)\b w \b` match (`FindStringIndex`). -/
def findWordIdx (w : List Char) : Option Char → ℕ → List Char → Option ℕ
  | _, _, [] => none
  | prev, idx, c :: rest =>
    if wordAtHead w prev (c :: rest) then some idx
    else findWordIdx w (some c) (idx + 1) rest

def wordIndex (w msg : String) : Option ℕ := findWordIdx w.data none 0 msg.data

/-- Go `DetectTool` (part_009 lines 384-398).  The Go code iterates the
`toolPatterns` map in unspecified order, keeping the strictly smallest match
position; the three words can never match at the same position (they differ
within their first two characters), so the result is independent of the
iteration order, fixed here as claude, codex, opencode. -/
def DetectTool (message : String) : String :=
  ((["claude", "codex", "opencode"] : List String).foldl (fun acc tool =>
    match wordIndex tool message with
    | none => acc
    | some pos =>
      match acc with
      | none => some (pos, tool)
      | some pt => if pos < pt.1 then some (pos, tool) else acc) none
  ).elim "" (fun pt => pt.2)

/-- Decidable statement that every case-insensitive occurrence of `w` in the
remaining text is flanked by a word character, i.e. `w` occurs only inside
longer words; `prev` is the character before the current position. -/
def occursOnlyInsideWords (w : List Char) : Option Char → List Char → Bool
  | _, [] => true
  | prev, c :: rest =>
    (match dropCaseI w (c :: rest) with
     | none => true
     | some suffix =>
       (match prev with
        | some p => isWordChar p
        | none => false) ||
       (match suffix with
        | c' :: _ => isWordChar c'
        | [] => false)) &&
    occursOnlyInsideWords w (some c) rest

/-- Decidable statement that `w` does not occur in the text at all
(case-insensitively). -/
def noOccurrence (w : List Char) : List Char → Bool
  | [] => true
  | c :: rest =>
    (match dropCaseI w (c :: rest) with
     | none => true
     | some _ => false) && noOccurrence w rest

/-- The candidate tool words. -/
def toolWords : List String := ["claude", "codex", "opencode"]

/-- Whether `i` strictly precedes the (optional) position `o`. -/
def posLt (i : ℕ) : Option ℕ → Bool
  | none => true
  | some j => decide (i < j)

/-! ### Plan parsing (pkg/council/planner.go)

`extractJSON` uses two Go regexes: the fenced-markdown pattern
`(?s)` + three backticks + `(?:json)?\s*({.*?})\s*` + three backticks
(`FindStringSubmatch`, group 1), and the raw pattern
`\{[^{}]*(?:\{[^{}]*\}[^{}]*)*\}` (`FindString`).  Both are modelled as
character-level matchers with Go's leftmost-match semantics: each start
position is tried in order, and at a fixed start the pattern is
deterministic (the lazy group stops at the earliest qualifying closing
brace; the raw pattern's body admits exactly one nesting level and ends at
the first closing brace at depth one). -/

/-- Go `council.FileAction` (planner.go lines 11-15). -/
structure FileAction where
  path : String
  action : String
  summary : String

deriving DecidableEq

/-- Go `council.Plan` (planner.go lines 18-26). -/
structure Plan where
  tool : String
  task : String
  summary : String
  files : List FileAction
  dependencies : List String
  risks : List String
  confidence : ℚ

deriving DecidableEq

/-- Go `\s` of Go regexp: `[\t\n\f\r ]`. -/
def isRegexSpace (c : Char) : Bool :=
  c = '\t' || c = '\n' || c = '\x0c' || c = '\r' || c = ' '

/-- Skip `\s*`. -/
def dropWS (s : List Char) : List Char := s.dropWhile isRegexSpace

/-- Matcher for the raw-pattern body after the opening brace: at depth one a
closing brace ends the match, a nested brace enters depth two, and a third
level aborts the attempt (the pattern admits at most one nesting level).
`acc` holds the consumed characters in reverse, starting with the opening
brace. -/
def braceGo (depth2 : Bool) (acc : List Char) : List Char → Option (List Char)
  | [] => none
  | c :: rest =>
    if c = '\x7b' then
      if depth2 then none else braceGo true (c :: acc) rest
    else if c = '\x7d' then
      if depth2 then braceGo false (c :: acc) rest else some (c :: acc).reverse
    else braceGo depth2 (c :: acc) rest

/-- Go `FindString` for the raw pattern: leftmost opening brace from which the
body matcher succeeds. -/
def braceFind : List Char → Option (List Char)
  | [] => none
  | c :: rest =>
    if c = '\x7b' then
      match braceGo false [c] rest with
      | some m => some m
      | none => braceFind rest
    else braceFind rest

/-- Three backticks, the fence delimiter. -/
def fenceMark : List Char := ['\x60', '\x60', '\x60']

/-- The lazy group `({.*?})` followed by `\s*` and the closing fence: the
group ends at the earliest closing brace whose suffix is whitespace and the
fence.  `acc` holds the group so far in reverse. -/
def fenceLazy (acc : List Char) : List Char → Option (List Char)
  | [] => none
  | c :: rest =>
    if c = '\x7d' && isPrefixL fenceMark (dropWS rest) then some (c :: acc).reverse
    else fenceLazy (c :: acc) rest

/-- Attempt the fenced pattern having consumed the opening fence: optionally
consume `json`, skip whitespace, require an opening brace, then the lazy
group. -/
def fenceAttempt (s : List Char) : Option (List Char) :=
  let s1 := if isPrefixL ['j', 's', 'o', 'n'] s then s.drop 4 else s
  match dropWS s1 with
  | c :: rest => if c = '\x7b' then fenceLazy [c] rest else none
  | [] => none

/-- Go `FindStringSubmatch` for the fenced pattern: leftmost fence from which
the attempt succeeds, returning group 1. -/
def fenceFind : List Char → Option (List Char)
  | [] => none
  | c :: rest =>
    if isPrefixL fenceMark (c :: rest) then
      match fenceAttempt ((c :: rest).drop 3) with
      | some g => some g
      | none => fenceFind rest
    else fenceFind rest

/-- Go `extractJSON` (planner.go lines 73-88): the fenced block's group if the
fenced pattern matches, else the raw pattern's match if any (`FindString`
returns a non-empty string exactly when it matches, since any match starts
with a brace), else the text unchanged. -/
def extractJSON (text : String) : String :=
  match fenceFind text.data with
  | some g => ⟨g⟩
  | none =>
    match braceFind text.data with
    | some m => ⟨m⟩
    | none => text

/-- Go `ParsePlanResponse` (planner.go lines 90-109).  `json.Unmarshal` into
`Plan` is Go standard library, supplied as the `decode` oracle (`none`
models a failed decode).  On decode failure the fallback plan carries the
raw response as summary with an empty files list (and zero values in the
remaining fields); the error return is nil in both branches. -/
def ParsePlanResponse (decode : String → Option Plan) (tool task response : String) :
    Except String Plan :=
  match decode (extractJSON response) with
  | none =>
    .ok { tool := tool, task := task, summary := response, files := [],
          dependencies := [], risks := [], confidence := 0 }
  | some plan => .ok { plan with tool := tool, task := task }

/-- A reply wrapping a payload whose braces nest three levels deep in
surrounding prose. -/
def planReply : String :=
  "note \x7b\"a\":\x7b\"b\":\x7b\"c\":1\x7d\x7d\x7d end"

/-- The outermost balanced bracket block of `planReply`. -/
def planReplyOuter : String := "\x7b\"a\":\x7b\"b\":\x7b\"c\":1\x7d\x7d\x7d"

/-! ### Theorems -/

theorem estLess_iff_lt (a b : CostEstimate) : estLess a b = true ↔ sortKey a < sortKey b := by
  simp only [estLess, sortKey, Prod.Lex.lt_iff]
  cases ha : a.isAvailable <;> cases hb : b.isAvailable <;>
    cases hwa : a.willExceedLimit <;> cases hwb : b.willExceedLimit <;>
      by_cases hca : a.estimatedCost = 0 <;> by_cases hcb : b.estimatedCost = 0 <;>
        by_cases hcc : a.estimatedCost = b.estimatedCost <;>
          simp_all [neg_lt_neg_iff] <;>
            (first | omega | linarith | tauto |
              (constructor <;> intro h <;> (first | omega | linarith | tauto | simp_all)))

theorem sortKey_eq_iff (a b : CostEstimate) :
    sortKey a = sortKey b ↔
      (a.isAvailable = b.isAvailable ∧ a.willExceedLimit = b.willExceedLimit ∧
        a.estimatedCost = b.estimatedCost ∧ a.availablePercent = b.availablePercent) := by
  simp only [sortKey, toLex_inj, Prod.mk.injEq]
  cases ha : a.isAvailable <;> cases hb : b.isAvailable <;>
    cases hwa : a.willExceedLimit <;> cases hwb : b.willExceedLimit <;>
      by_cases hca : a.estimatedCost = 0 <;> by_cases hcb : b.estimatedCost = 0 <;>
        simp_all [neg_eq_iff_eq_neg] <;>
          (first | omega | linarith | tauto |
            (constructor <;> intro h <;> (first | omega | linarith | tauto | simp_all)) |
            (intro h <;> (first | omega | linarith | tauto | simp_all)))

theorem estLE_iff (a b : CostEstimate) : estLE a b ↔ sortKey a ≤ sortKey b := by
  unfold estLE
  rw [← not_lt, ← estLess_iff_lt]
  simp

/-- Sorting with the comparator produces an `estLE`-sorted list. -/
theorem sorted_sortEstimates (l : List CostEstimate) :
    List.Sorted estLE (SortEstimates l) := by
  haveI : IsTotal CostEstimate estLE :=
    ⟨fun a b => by rw [estLE_iff, estLE_iff]; exact le_total _ _⟩
  haveI : IsTrans CostEstimate estLE :=
    ⟨fun a b c hab hbc => by
      rw [estLE_iff] at hab hbc ⊢
      exact le_trans hab hbc⟩
  exact List.sorted_insertionSort estLE l

/-- Sorting permutes the input list. -/
theorem perm_sortEstimates (l : List CostEstimate) : (SortEstimates l).Perm l :=
  List.perm_insertionSort estLE l

theorem isPrefixL_append (p r : List Char) : isPrefixL p (p ++ r) = true := by
  induction p with
  | nil => rfl
  | cons c cs ih => simp [isPrefixL, ih]

theorem containsL_of_isPrefixL {pat s : List Char} (h : isPrefixL pat s = true) :
    containsL pat s = true := by
  cases s with
  | nil => simpa [containsL] using h
  | cons c rest => simp [containsL, h]

theorem containsL_append_left {pat r : List Char} (l : List Char)
    (h : containsL pat r = true) : containsL pat (l ++ r) = true := by
  induction l with
  | nil => simpa using h
  | cons c cs ih => simp [containsL, ih]

theorem containsL_self_append (pat r : List Char) : containsL pat (pat ++ r) = true :=
  containsL_of_isPrefixL (isPrefixL_append pat r)

theorem isPrefixL_extend {p s : List Char} (r : List Char) (h : isPrefixL p s = true) :
    isPrefixL p (s ++ r) = true := by
  induction p generalizing s with
  | nil => rfl
  | cons c cs ih =>
    cases s with
    | nil => simp [isPrefixL] at h
    | cons d ds =>
      simp only [isPrefixL, Bool.and_eq_true, beq_iff_eq] at h ⊢
      exact ⟨h.1, ih h.2⟩

theorem containsL_append_right {pat l : List Char} (r : List Char)
    (h : containsL pat l = true) : containsL pat (l ++ r) = true := by
  induction l with
  | nil =>
    cases pat with
    | nil => exact containsL_of_isPrefixL rfl
    | cons c cs => simp [containsL, isPrefixL] at h
  | cons c cs ih =>
    simp only [containsL, Bool.or_eq_true] at h
    rcases h with h | h
    · exact containsL_of_isPrefixL (isPrefixL_extend r h)
    · simp only [List.cons_append, containsL, Bool.or_eq_true]
      exact Or.inr (ih h)

theorem strContains_append_left (t s pat : String) (h : strContains s pat = true) :
    strContains (t ++ s) pat = true := by
  unfold strContains at h ⊢
  rw [String.data_append]
  exact containsL_append_left _ h

theorem strContains_append_right (s t pat : String) (h : strContains s pat = true) :
    strContains (s ++ t) pat = true := by
  unfold strContains at h ⊢
  rw [String.data_append]
  exact containsL_append_right _ h

theorem strContains_refl (pat : String) : strContains pat pat = true := by
  unfold strContains
  have := containsL_self_append pat.data []
  simpa using this

/-- Helper: an `Except` that `isOk` equals `.ok` of its extracted value. -/
theorem except_eq_ok_getD {ε α : Type} (x : Except ε α) (d : α) (h : x.isOk = true) :
    x = .ok (x.toOption.getD d) := by
  cases x with
  | ok a => rfl
  | error e => simp [Except.isOk, Except.toBool] at h

/-- Sorting preserves non-emptiness. -/
theorem sortEstimates_ne_nil {l : List CostEstimate} (hl : l ≠ []) :
    SortEstimates l ≠ [] := by
  intro hcon
  have hperm := perm_sortEstimates l
  rw [hcon] at hperm
  exact hl hperm.symm.eq_nil

/-- Members of `FilterAvailable` are available and under limit. -/
theorem mem_filterAvailable {x : CostEstimate} {l : List CostEstimate}
    (hx : x ∈ FilterAvailable l) : x.isAvailable = true ∧ x.willExceedLimit = false := by
  have h := (List.mem_filter.mp hx).2
  simp only [Bool.and_eq_true, Bool.not_eq_true'] at h
  exact h

/-- C1: for every non-empty list of cost estimates, `MakeDecision` with no
forced worker fails with the no-workers-available error exactly when
`FilterAvailable` is empty; otherwise it succeeds, the selected estimate is
the head of `SortEstimates (FilterAvailable estimates)` and the alternatives
are exactly the remaining elements in sorted order; a free available
estimate is always selected over a paid available one. -/
theorem makeDecision_unforced_spec (estimates : List CostEstimate)
    (analysis : ComplexityAnalysis) (hne : estimates ≠ []) :
    (MakeDecision estimates analysis "" = .error noToolsAvailableErr ↔
      FilterAvailable estimates = []) ∧
    (FilterAvailable estimates ≠ [] → (MakeDecision estimates analysis "").isOk = true) ∧
    (∀ d, MakeDecision estimates analysis "" = .ok d →
      SortEstimates (FilterAvailable estimates) = d.selectedCost :: d.alternatives ∧
      d.selectedTool = d.selectedCost.tool ∧ d.wasForced = false ∧
      (∀ e ∈ FilterAvailable estimates, e.estimatedCost = 0 →
        d.selectedCost.estimatedCost = 0)) := by
  unfold MakeDecision
  simp only [if_neg hne, ne_eq, not_true_eq_false, if_false]
  by_cases hfa : FilterAvailable estimates = []
  · simp [hfa, noToolsAvailableErr]
  · have hsne := sortEstimates_ne_nil hfa
    cases hs : SortEstimates (FilterAvailable estimates) with
    | nil => exact absurd hs hsne
    | cons s rest =>
      simp only [if_neg hfa, hs]
      refine ⟨by simp [hfa], fun _ => rfl, fun d hd => ?_⟩
      have hdf : d.selectedCost = s ∧ d.alternatives = rest ∧
          d.selectedTool = s.tool ∧ d.wasForced = false := by
        cases hd; exact ⟨rfl, rfl, rfl, rfl⟩
      obtain ⟨h1, h2, h3, h4⟩ := hdf
      refine ⟨by rw [h1, h2], by rw [h3, h1], h4, ?_⟩
      intro e he hef
      rw [h1]
      by_cases hsc : s.estimatedCost = 0
      · exact hsc
      · exfalso
        have hperm := perm_sortEstimates (FilterAvailable estimates)
        rw [hs] at hperm
        have hsmem : s ∈ FilterAvailable estimates := hperm.mem_iff.mp (.head rest)
        have hemem : e ∈ s :: rest := hperm.mem_iff.mpr he
        have hsF := mem_filterAvailable hsmem
        have heF := mem_filterAvailable he
        rcases List.mem_cons.mp hemem with rfl | hrest
        · exact hsc hef
        · have hsorted : List.Sorted estLE (s :: rest) := by
            have := sorted_sortEstimates (FilterAvailable estimates)
            rw [hs] at this
            exact this
          have hle : estLE s e := (List.sorted_cons.mp hsorted).1 e hrest
          have : estLess e s = true := by
            simp [estLess, hsF.1, hsF.2, heF.1, heF.2, hef, hsc]
          rw [estLE] at hle
          rw [this] at hle
          exact Bool.true_eq_false.mp hle

/-- C1 witness: with a paid and a free available estimate, the decision
succeeds, selects the free estimate first and lists the paid one as the only
alternative. -/
theorem makeDecision_unforced_spec_witness :
    ([ePaid, eFree] : List CostEstimate) ≠ [] ∧
    FilterAvailable [ePaid, eFree] ≠ [] ∧
    SortEstimates (FilterAvailable [ePaid, eFree]) =
      dFreePaid.selectedCost :: dFreePaid.alternatives ∧
    dFreePaid.wasForced = false ∧
    dFreePaid.selectedCost.estimatedCost = 0 := by
  have hne : ([ePaid, eFree] : List CostEstimate) ≠ [] := by decide
  have hok : (MakeDecision [ePaid, eFree] anAnalysis "").isOk = true := by decide
  have hd : MakeDecision [ePaid, eFree] anAnalysis "" = .ok dFreePaid :=
    except_eq_ok_getD _ dDefault hok
  have hspec := (makeDecision_unforced_spec [ePaid, eFree] anAnalysis hne).2.2 dFreePaid hd
  exact ⟨hne, by decide, hspec.1, hspec.2.2.1,
    hspec.2.2.2 eFree (by decide) (by decide)⟩

/-- C2 counterexample: the comparator is not total on non-identical
estimates — two distinct estimates that agree on the compared fields compare
equal in both directions (and the sort leaves either input order in place). -/
theorem sortComparator_counterexample :
    estTieA ≠ estTieB ∧ estLess estTieA estTieB = false ∧ estLess estTieB estTieA = false ∧
    SortEstimates [estTieA, estTieB] = [estTieA, estTieB] ∧
    SortEstimates [estTieB, estTieA] = [estTieB, estTieA] := by decide

/-- C2 amended: the comparator is asymmetric and is total on the compared
key — two estimates compare equal in both directions exactly when they agree
on `isAvailable`, `willExceedLimit`, `estimatedCost` and `availablePercent`
(even when non-identical); the sorting routine itself is a deterministic
function of the estimate list. -/
theorem sortComparator_amended (a b : CostEstimate) :
    (estLess a b = true → estLess b a = false) ∧
    (estLess a b = false ∧ estLess b a = false ↔
      (a.isAvailable = b.isAvailable ∧ a.willExceedLimit = b.willExceedLimit ∧
        a.estimatedCost = b.estimatedCost ∧ a.availablePercent = b.availablePercent)) := by
  constructor
  · intro h
    rw [estLess_iff_lt] at h
    rw [← Bool.not_eq_true, estLess_iff_lt]
    exact fun h2 => absurd h2 (not_lt.mpr h.le)
  · rw [← sortKey_eq_iff]
    constructor
    · rintro ⟨h1, h2⟩
      rw [← Bool.not_eq_true, estLess_iff_lt] at h1 h2
      exact le_antisymm (not_lt.mp h2) (not_lt.mp h1)
    · intro h
      constructor <;> rw [← Bool.not_eq_true, estLess_iff_lt, h] <;> exact lt_irrefl _

/-- C2 amended witness: asymmetry at a concrete pair — the free estimate
compares strictly before the paid one and not conversely. -/
theorem sortComparator_amended_witness :
    estLess eFree ePaid = true ∧ estLess ePaid eFree = false :=
  ⟨by decide, (sortComparator_amended eFree ePaid).1 (by decide)⟩

/-- C3: any decision returned by `MakeDecision` on estimates with pairwise
distinct tools (as produced by the per-tool trackers) never lists the
selected worker among the alternatives, and an unavailable estimate is never
selected unless the decision was forced. -/
theorem routingDecision_invariants (estimates : List CostEstimate)
    (analysis : ComplexityAnalysis) (forceTool : String) (d : RoutingDecision)
    (hnodup : (estimates.map (fun e => e.tool)).Nodup)
    (hd : MakeDecision estimates analysis forceTool = .ok d) :
    (∀ alt ∈ d.alternatives, alt.tool ≠ d.selectedTool) ∧
    d.selectedCost ∉ d.alternatives ∧
    (d.wasForced = false → d.selectedCost.isAvailable = true) := by
  unfold MakeDecision at hd
  by_cases hne : estimates = []
  · simp [hne] at hd
  · simp only [if_neg hne] at hd
    by_cases hft : forceTool = ""
    · simp only [hft, ne_eq, not_true_eq_false, if_false] at hd
      by_cases hfa : FilterAvailable estimates = []
      · simp [hfa] at hd
      · have hsne := sortEstimates_ne_nil hfa
        cases hs : SortEstimates (FilterAvailable estimates) with
        | nil => exact absurd hs hsne
        | cons s rest =>
          rw [if_neg hfa, hs] at hd
          cases hd
          have hperm := perm_sortEstimates (FilterAvailable estimates)
          rw [hs] at hperm
          have hpmap := hperm.map (fun e => e.tool)
          have hnodupF : ((FilterAvailable estimates).map (fun e => e.tool)).Nodup := by
            exact ((List.filter_sublist estimates).map (fun e => e.tool)).nodup hnodup
          have hnodupS : ((s :: rest).map (fun e => e.tool)).Nodup :=
            hpmap.nodup_iff.mpr hnodupF
          simp only [List.map_cons, List.nodup_cons, List.mem_map] at hnodupS
          have hsmem : s ∈ FilterAvailable estimates := hperm.mem_iff.mp (.head rest)
          refine ⟨?_, ?_, fun _ => (mem_filterAvailable hsmem).1⟩
          · intro alt halt
            intro hcon
            exact hnodupS.1 ⟨alt, halt, hcon⟩
          · intro hcon
            exact hnodupS.1 ⟨s, hcon, rfl⟩
    · rw [if_pos hft] at hd
      unfold handleForcedTool at hd
      cases hv : ValidateToolType forceTool with
      | error e => simp [hv] at hd
      | ok toolType =>
        simp only [hv] at hd
        cases hsel : (estimates.filter (fun e => e.tool == toolType)).getLast? with
        | none => simp [hsel] at hd
        | some selected =>
          simp only [hsel] at hd
          cases hd
          have hselmem : selected ∈ estimates.filter (fun e => e.tool == toolType) :=
            List.mem_of_mem_getLast? hsel
          have hseltool : selected.tool = toolType := by
            have := (List.mem_filter.mp hselmem).2
            simpa using this
          constructor
          · intro alt halt
            have := (List.mem_filter.mp halt).2
            simp only [bne_iff_ne, ne_eq] at this
            simpa [hseltool] using this
          constructor
          · intro hcon
            have := (List.mem_filter.mp hcon).2
            simp only [bne_iff_ne, ne_eq] at this
            exact this hseltool
          · intro hcon
            exact absurd hcon (by simp)

/-- C3 witness: the invariants at the free/paid scenario. -/
theorem routingDecision_invariants_witness :
    ((([ePaid, eFree] : List CostEstimate).map (fun e => e.tool)).Nodup ∧
      dFreePaid.alternatives = [ePaid] ∧ dFreePaid.selectedTool = "codex") ∧
    dFreePaid.selectedCost ∉ dFreePaid.alternatives ∧
    dFreePaid.selectedCost.isAvailable = true := by
  have hok : (MakeDecision [ePaid, eFree] anAnalysis "").isOk = true := by decide
  have hd : MakeDecision [ePaid, eFree] anAnalysis "" = .ok dFreePaid :=
    except_eq_ok_getD _ dDefault hok
  have hinv := routingDecision_invariants [ePaid, eFree] anAnalysis "" dFreePaid
    (by decide) hd
  exact ⟨⟨by decide, by decide, by decide⟩, hinv.2.1, hinv.2.2 (by decide)⟩

/-- C7: with a forced worker given (and a non-empty estimate list), an
unknown name fails with the invalid-tool error; a known name with no
estimate among all computed estimates fails with the not-found error; a
known name with an estimate always succeeds with `wasForced = true`, selects
that estimate even when unavailable or over-limit, and the reason string
carries the low-availability warning when it is unavailable and the
over-limit warning when it would exceed limits. -/
theorem makeDecision_forced_spec (estimates : List CostEstimate)
    (analysis : ComplexityAnalysis) (forceTool : String)
    (hne : estimates ≠ []) (hft : forceTool ≠ "") :
    (∀ m, ValidateToolType forceTool = .error m →
      MakeDecision estimates analysis forceTool = .error ("invalid forced tool: " ++ m)) ∧
    (∀ tt, ValidateToolType forceTool = .ok tt →
      (∀ e ∈ estimates, e.tool ≠ tt) →
      MakeDecision estimates analysis forceTool =
        .error ("forced tool " ++ forceTool ++ " not found in available tools")) ∧
    (∀ tt, ValidateToolType forceTool = .ok tt →
      (∃ e ∈ estimates, e.tool = tt) →
      (MakeDecision estimates analysis forceTool).isOk = true) ∧
    (∀ tt, ValidateToolType forceTool = .ok tt →
      ∀ d, MakeDecision estimates analysis forceTool = .ok d →
        d.wasForced = true ∧ d.selectedCost.tool = tt ∧
        (d.selectedCost.isAvailable = false →
          strContains d.reason lowAvailabilityWarning = true) ∧
        (d.selectedCost.willExceedLimit = true →
          strContains d.reason exceedLimitWarning = true)) := by
  unfold MakeDecision handleForcedTool
  rw [if_neg hne, if_pos hft]
  refine ⟨?_, ?_, ?_, ?_⟩
  · intro m hm
    rw [hm]
  · intro tt htt hnone
    rw [htt]
    have hfilter : estimates.filter (fun e => e.tool == tt) = [] := by
      rw [List.filter_eq_nil_iff]
      intro a ha
      simp [hnone a ha]
    simp [hfilter]
  · intro tt htt ⟨e, he, hetool⟩
    rw [htt]
    have hememF : e ∈ estimates.filter (fun e => e.tool == tt) :=
      List.mem_filter.mpr ⟨he, by simp [hetool]⟩
    cases hsel : (estimates.filter (fun e => e.tool == tt)).getLast? with
    | none =>
      exfalso
      have : estimates.filter (fun e => e.tool == tt) = [] := by
        rwa [List.getLast?_eq_none_iff] at hsel
      rw [this] at hememF
      exact absurd hememF (List.not_mem_nil e)
    | some s => simp [hsel, Except.isOk, Except.toBool]
  · intro tt htt d hd
    simp only [htt] at hd
    cases hsel : (estimates.filter (fun e => e.tool == tt)).getLast? with
    | none => simp [hsel] at hd
    | some selected =>
      simp only [hsel, Except.ok.injEq] at hd
      subst hd
      have hselmem : selected ∈ estimates.filter (fun e => e.tool == tt) :=
        List.mem_of_mem_getLast? hsel
      have hseltool : selected.tool = tt := by
        have := (List.mem_filter.mp hselmem).2
        simpa using this
      refine ⟨rfl, hseltool, ?_, ?_⟩
      · intro hunav
        rw [if_pos (show (!selected.isAvailable) = true by rw [hunav]; rfl)]
        apply strContains_append_right
        apply strContains_append_left
        apply strContains_append_right
        apply strContains_append_right
        apply strContains_append_right
        apply strContains_append_left
        exact strContains_refl _
      · intro hexc
        rw [if_pos hexc]
        apply strContains_append_left
        apply strContains_append_left
        exact strContains_refl _

/-- C7 witness: forcing `claude-code` when its estimate is unavailable and
over-limit still succeeds, marks the decision forced, selects it, and the
reason carries both warnings. -/
theorem makeDecision_forced_spec_witness :
    dForcedLow.wasForced = true ∧ dForcedLow.selectedCost.tool = "claude-code" ∧
    strContains dForcedLow.reason lowAvailabilityWarning = true ∧
    strContains dForcedLow.reason exceedLimitWarning = true := by
  have hok : (MakeDecision [eLow, eFree] anAnalysis "claude-code").isOk = true := by decide
  have hd : MakeDecision [eLow, eFree] anAnalysis "claude-code" = .ok dForcedLow :=
    except_eq_ok_getD _ dDefault hok
  have h := (makeDecision_forced_spec [eLow, eFree] anAnalysis "claude-code" (by decide)
    (by decide)).2.2.2 "claude-code" (by decide) dForcedLow hd
  exact ⟨h.1, h.2.1, h.2.2.1 (by decide), h.2.2.2 (by decide)⟩

/-- C4 counterexample: the Claude-variant `StreamParser` does not ignore a
malformed transport line — feeding the single malformed line `{not json`
yields that raw text as accumulated output (with no error), contradicting
that malformed lines contribute nothing in both wire-format variants. -/
theorem streamParser_malformed_counterexample :
    streamParserParse [badLine] false = ("\x7bnot json", false) ∧
    ("\x7bnot json" : String) ≠ "" := by decide

/-- C4 amended: no transport line ever causes an error or aborts either
parser; the Codex variant skips malformed (undecodable) and type-less lines
entirely, and both variants leave the state unchanged on recognized JSON
objects whose event type is one neither variant handles; the Claude variant
instead treats undecodable or type-less lines as plain text appended to the
output. -/
theorem streamParsers_malformed_amended (st : ParserState) (t : TLine)
    (lines : List TLine) :
    ((streamParserParse lines false).2 = false ∧
      (codexParserParse lines false).2 = false) ∧
    (t.decoded = none → t.raw ≠ "" →
      codexParserLine st t = st ∧ streamParserLine st t = processText st t.raw) ∧
    (∀ e, t.decoded = some e → e.getStr "type" = none → t.raw ≠ "" →
      codexParserLine st t = st ∧ streamParserLine st t = processText st t.raw) ∧
    (∀ e ty, t.decoded = some e → e.getStr "type" = some ty → t.raw ≠ "" →
      ty ∉ (["delta", "message", "item.completed", "item.started", "result",
        "error", "stream_event", "assistant"] : List String) →
      codexParserLine st t = st ∧ streamParserLine st t = st) := by
  refine ⟨⟨?_, ?_⟩, ?_, ?_, ?_⟩
  · unfold streamParserParse
    simp only [Bool.false_eq_true, if_false]
    split <;> rfl
  · unfold codexParserParse
    simp only [Bool.false_eq_true, if_false]
    split <;> rfl
  · intro hdec hraw
    constructor <;> simp [codexParserLine, streamParserLine, hdec, hraw]
  · intro e hdec hty hraw
    constructor <;> simp [codexParserLine, streamParserLine, hdec, hty, hraw]
  · intro e ty hdec hty hraw hmem
    simp only [List.mem_cons, List.not_mem_nil, or_false, not_or] at hmem
    obtain ⟨h1, h2, h3, h4, h5, h6, h7, h8⟩ := hmem
    constructor <;>
      simp [codexParserLine, streamParserLine, hdec, hty, hraw, h1, h2, h3, h4, h5, h6, h7, h8]

/-- C4 witness: the amended behavior at concrete lines — the malformed line
is skipped by the Codex parser and becomes text for the Claude parser; the
spec's three-line robustness test holds for the Codex variant: a valid
line, a malformed line and a second valid line accumulate to
`"hello" ++ "\n" ++ "world"` with no error. -/
theorem streamParsers_malformed_amended_witness :
    (codexParserLine ⟨"", ""⟩ badLine = ⟨"", ""⟩ ∧
      streamParserLine ⟨"", ""⟩ badLine = processText ⟨"", ""⟩ "\x7bnot json") ∧
    codexParserParse [codexDelta1, badLine, codexDelta2] false =
      ("hello" ++ "\n" ++ "world", false) := by
  refine ⟨(streamParsers_malformed_amended ⟨"", ""⟩ badLine []).2.1 rfl (by decide),
    by decide⟩

/-- C5 counterexample: a read error does not return the text parsed so far —
the same stream read without error accumulates `"hello\n"`, but with a read
error both parsers return the empty string alongside the error. -/
theorem parse_readError_counterexample :
    (codexParserParse [codexDelta1] false).1 = "hello\n" ∧
    codexParserParse [codexDelta1] true = ("", true) ∧
    (streamParserParse [claudeDelta1] false).1 = "hello\n" ∧
    streamParserParse [claudeDelta1] true = ("", true) := by decide

/-- C5 amended: `Parse` returns a non-nil error exactly when the underlying
read failed (decode failures never produce one), and on a read error it
returns the empty string together with the error — the text parsed so far is
discarded rather than returned. -/
theorem parse_error_amended (lines : List TLine) (readErr : Bool) :
    ((streamParserParse lines readErr).2 = readErr ∧
      (codexParserParse lines readErr).2 = readErr) ∧
    (readErr = true →
      streamParserParse lines readErr = ("", true) ∧
      codexParserParse lines readErr = ("", true)) := by
  cases readErr with
  | false =>
    refine ⟨⟨?_, ?_⟩, by simp⟩
    · unfold streamParserParse
      simp only [Bool.false_eq_true, if_false]
      split <;> rfl
    · unfold codexParserParse
      simp only [Bool.false_eq_true, if_false]
      split <;> rfl
  | true => exact ⟨⟨rfl, rfl⟩, fun _ => ⟨rfl, rfl⟩⟩

/-- C5 amended witness: the amended behavior at a concrete erroring read. -/
theorem parse_error_amended_witness :
    streamParserParse [claudeDelta1] true = ("", true) ∧
    codexParserParse [claudeDelta1] true = ("", true) :=
  (parse_error_amended [claudeDelta1] true).2 rfl

/-- Generic broadcast facts over any tool list whose tools all have
delegators (induction backbone for C6). -/
theorem broadcastLoop_spec (available : String → Bool) (mockResp : String → String)
    (queryRes : String → Except String String) (tools : List String) (sess : Session)
    (hdel : ∀ t ∈ tools, hasDelegator t = true) :
    (broadcastLoop false available mockResp queryRes tools sess).1.length =
      (tools.filter available).length ∧
    (∀ r ∈ (broadcastLoop false available mockResp queryRes tools sess).1,
      r.tool ∈ tools ∧ available r.tool = true) ∧
    (∀ t ∈ tools, available t = true → ∀ e, queryRes t = .error e →
      ({ tool := t, content := "[Error: " ++ e ++ "]", error := some e } : Response) ∈
        (broadcastLoop false available mockResp queryRes tools sess).1) ∧
    (∀ t ∈ tools, available t = true → ∀ c, queryRes t = .ok c →
      ({ tool := t, content := c, error := none } : Response) ∈
        (broadcastLoop false available mockResp queryRes tools sess).1) := by
  induction tools generalizing sess with
  | nil => exact ⟨rfl, by simp [broadcastLoop], by simp, by simp⟩
  | cons t rest ih =>
    have hdelt : hasDelegator t = true := hdel t (.head rest)
    have hdelr : ∀ t' ∈ rest, hasDelegator t' = true :=
      fun t' ht' => hdel t' (.tail t ht')
    by_cases hav : available t = true
    · cases hq : queryRes t with
      | error e =>
        have := ih sess hdelr
        simp only [broadcastLoop, Bool.false_eq_true, if_false, hav, Bool.not_true,
          hdelt, eq_self_iff_true, if_true, hq, List.filter_cons, List.length_cons]
        refine ⟨by simp [hav, this.1], ?_, ?_, ?_⟩
        · intro r hr
          rcases List.mem_cons.mp hr with rfl | hr'
          · exact ⟨.head rest, hav⟩
          · have := (this.2.1 r hr')
            exact ⟨.tail t this.1, this.2⟩
        · intro t' ht' hav' e' hq'
          rcases List.mem_cons.mp ht' with rfl | ht''
          · rw [hq'] at hq
            cases hq
            exact .head _
          · exact .tail _ (this.2.2.1 t' ht'' hav' e' hq')
        · intro t' ht' hav' c' hq'
          rcases List.mem_cons.mp ht' with rfl | ht''
          · rw [hq'] at hq; cases hq
          · exact .tail _ (this.2.2.2 t' ht'' hav' c' hq')
      | ok c =>
        have := ih (sess.addMessage t c) hdelr
        simp only [broadcastLoop, Bool.false_eq_true, if_false, hav, Bool.not_true,
          hdelt, eq_self_iff_true, if_true, hq, List.filter_cons, List.length_cons]
        refine ⟨by simp [hav, this.1], ?_, ?_, ?_⟩
        · intro r hr
          rcases List.mem_cons.mp hr with rfl | hr'
          · exact ⟨.head rest, hav⟩
          · have := (this.2.1 r hr')
            exact ⟨.tail t this.1, this.2⟩
        · intro t' ht' hav' e' hq'
          rcases List.mem_cons.mp ht' with rfl | ht''
          · rw [hq'] at hq; cases hq
          · exact .tail _ (this.2.2.1 t' ht'' hav' e' hq')
        · intro t' ht' hav' c' hq'
          rcases List.mem_cons.mp ht' with rfl | ht''
          · rw [hq'] at hq
            cases hq
            exact .head _
          · exact .tail _ (this.2.2.2 t' ht'' hav' c' hq')
    · have hav' : available t = false := by
        cases h : available t
        · rfl
        · exact absurd h hav
      have := ih sess hdelr
      simp only [broadcastLoop, Bool.false_eq_true, if_false, hav', Bool.not_false,
        eq_self_iff_true, if_true, List.filter_cons]
      refine ⟨by simp [hav', this.1], ?_, ?_, ?_⟩
      · intro r hr
        have := this.2.1 r hr
        exact ⟨.tail t this.1, this.2⟩
      · intro t' ht' havt' e' hq'
        rcases List.mem_cons.mp ht' with rfl | ht''
        · rw [havt'] at hav'; cases hav'
        · exact this.2.2.1 t' ht'' havt' e' hq'
      · intro t' ht' havt' c' hq'
        rcases List.mem_cons.mp ht' with rfl | ht''
        · rw [havt'] at hav'; cases hav'
        · exact this.2.2.2 t' ht'' havt' c' hq'

/-- C6: a non-mock broadcast delivers exactly one response per available
worker (none for unavailable ones, which are skipped silently); with zero
available workers the delivered response list is empty; a worker whose query
fails contributes an error-flagged response without suppressing the other
workers' responses; the returned list is complete — the channel closes only
after all of it has been delivered, which the model captures by returning
the full list. -/
theorem broadcast_spec (available : String → Bool) (mockResp : String → String)
    (queryRes : String → Except String String) (sess : Session) (message : String) :
    (Broadcast false available mockResp queryRes sess message).1.length =
      (broadcastToolNames.filter available).length ∧
    (∀ r ∈ (Broadcast false available mockResp queryRes sess message).1,
      r.tool ∈ broadcastToolNames ∧ available r.tool = true) ∧
    ((∀ t ∈ broadcastToolNames, available t = false) →
      (Broadcast false available mockResp queryRes sess message).1 = []) ∧
    (∀ t ∈ broadcastToolNames, available t = true → ∀ e, queryRes t = .error e →
      ({ tool := t, content := "[Error: " ++ e ++ "]", error := some e } : Response) ∈
        (Broadcast false available mockResp queryRes sess message).1) ∧
    (∀ t ∈ broadcastToolNames, available t = true → ∀ c, queryRes t = .ok c →
      ({ tool := t, content := c, error := none } : Response) ∈
        (Broadcast false available mockResp queryRes sess message).1) := by
  have h := broadcastLoop_spec available mockResp queryRes broadcastToolNames sess
    (by decide)
  refine ⟨h.1, h.2.1, ?_, h.2.2.1, h.2.2.2⟩
  intro hall
  have hfil : broadcastToolNames.filter available = [] := by
    rw [List.filter_eq_nil_iff]
    intro t ht
    simp [hall t ht]
  have hlen := h.1
  rw [hfil] at hlen
  exact List.length_eq_zero.mp hlen

/-- C6 witness: with 3 available workers of which one errors, the broadcast
delivers exactly 3 responses including the error-flagged one and both
successful ones; with zero available workers it delivers none. -/
theorem broadcast_spec_witness :
    (Broadcast false avAll (fun _ => "") qrOneError ⟨[], ""⟩ "m").1.length = 3 ∧
    ({ tool := "codex", content := "[Error: boom]", error := some "boom" } : Response) ∈
      (Broadcast false avAll (fun _ => "") qrOneError ⟨[], ""⟩ "m").1 ∧
    ({ tool := "claude", content := "reply from claude", error := none } : Response) ∈
      (Broadcast false avAll (fun _ => "") qrOneError ⟨[], ""⟩ "m").1 ∧
    ({ tool := "opencode", content := "reply from opencode", error := none } : Response) ∈
      (Broadcast false avAll (fun _ => "") qrOneError ⟨[], ""⟩ "m").1 ∧
    (Broadcast false (fun _ => false) (fun _ => "") qrOneError ⟨[], ""⟩ "m").1 = [] := by
  have h := broadcast_spec avAll (fun _ => "") qrOneError ⟨[], ""⟩ "m"
  have h0 := broadcast_spec (fun _ => false) (fun _ => "") qrOneError ⟨[], ""⟩ "m"
  refine ⟨by rw [h.1]; decide, ?_, ?_, ?_, h0.2.2.1 (by decide)⟩
  · exact h.2.2.2.1 "codex" (by decide) (by decide) "boom" (by decide)
  · exact h.2.2.2.2 "claude" (by decide) (by decide) "reply from claude" (by decide)
  · exact h.2.2.2.2 "opencode" (by decide) (by decide) "reply from opencode" (by decide)

/-- C10: `Query` always records the queried tool as the session's last
mentioned tool — also when the tool is unavailable or unknown and an error
response is returned — and appends to the history exactly on success, so the
history is unchanged whenever the response carries an error. -/
theorem query_frame_effects (useMocks : Bool) (available : String → Bool)
    (mockResp : String → String) (queryRes : String → Except String String)
    (sess : Session) (tool message : String) :
    (Query useMocks available mockResp queryRes sess tool message).1.lastTool = tool ∧
    ((Query useMocks available mockResp queryRes sess tool message).2.error ≠ none →
      (Query useMocks available mockResp queryRes sess tool message).1.history =
        sess.history) ∧
    ((Query useMocks available mockResp queryRes sess tool message).2.error = none →
      ∃ c, (Query useMocks available mockResp queryRes sess tool message).1.history =
        sess.history ++ [{ sender := tool, content := c }]) := by
  cases useMocks with
  | true => exact ⟨rfl, fun h => absurd rfl h, fun _ => ⟨mockResp tool, rfl⟩⟩
  | false =>
    unfold Query
    cases hav : available tool with
    | false =>
      simp only [hav, Bool.not_false, Bool.not_true, Bool.and_self,
        eq_self_iff_true, if_true]
      exact ⟨rfl, fun _ => rfl, fun h => Option.noConfusion h⟩
    | true =>
      simp only [hav, Bool.not_true, Bool.and_false, Bool.false_eq_true, if_false]
      cases hdel : hasDelegator tool with
      | false =>
        simp only [hdel, Bool.false_eq_true, if_false]
        exact ⟨rfl, fun _ => rfl, fun h => Option.noConfusion h⟩
      | true =>
        simp only [hdel, eq_self_iff_true, if_true]
        cases hq : queryRes tool with
        | error e =>
          simp only [hq]
          exact ⟨rfl, fun _ => rfl, fun h => Option.noConfusion h⟩
        | ok c =>
          simp only [hq]
          exact ⟨rfl, fun h => absurd rfl h, fun _ => ⟨c, rfl⟩⟩

/-- C10 witness: querying an unavailable tool returns an error response,
still sets the last tool, and leaves the history unchanged; a successful
query appends exactly the reply. -/
theorem query_frame_effects_witness :
    (Query false (fun _ => false) (fun _ => "") qrOneError ⟨[], ""⟩ "claude" "m").1.lastTool =
      "claude" ∧
    (Query false (fun _ => false) (fun _ => "") qrOneError ⟨[], ""⟩ "claude" "m").1.history =
      [] ∧
    (Query false avAll (fun _ => "") qrOneError ⟨[], ""⟩ "claude" "m").1.history =
      [{ sender := "claude", content := "reply from claude" }] := by
  have h1 := query_frame_effects false (fun _ => false) (fun _ => "") qrOneError
    ⟨[], ""⟩ "claude" "m"
  exact ⟨h1.1, h1.2.1 (by decide), by decide⟩

theorem findWordIdx_none_of_inside {w : List Char} (prev : Option Char) (idx : ℕ)
    (s : List Char) (h : occursOnlyInsideWords w prev s = true) :
    findWordIdx w prev idx s = none := by
  induction s generalizing prev idx with
  | nil => rfl
  | cons c rest ih =>
    simp only [occursOnlyInsideWords, Bool.and_eq_true] at h
    obtain ⟨h1, h2⟩ := h
    unfold findWordIdx
    rw [if_neg ?_]
    · exact ih _ _ h2
    · intro hcon
      unfold wordAtHead at hcon
      rw [Bool.and_eq_true] at hcon
      obtain ⟨hprev, hsuf⟩ := hcon
      cases hdp : dropCaseI w (c :: rest) with
      | none => rw [hdp] at hsuf; exact Bool.false_ne_true hsuf
      | some suffix =>
        rw [hdp] at h1 hsuf
        rw [Bool.or_eq_true] at h1
        rcases h1 with h1 | h1
        · cases prev with
          | none => exact Bool.false_ne_true h1
          | some p => simp_all
        · cases suffix with
          | nil => exact Bool.false_ne_true h1
          | cons c' cs' => simp_all

theorem findWordIdx_none_of_noOcc {w : List Char} (prev : Option Char) (idx : ℕ)
    (s : List Char) (h : noOccurrence w s = true) :
    findWordIdx w prev idx s = none := by
  induction s generalizing prev idx with
  | nil => rfl
  | cons c rest ih =>
    simp only [noOccurrence, Bool.and_eq_true] at h
    obtain ⟨h1, h2⟩ := h
    unfold findWordIdx
    rw [if_neg ?_]
    · exact ih _ _ h2
    · intro hcon
      unfold wordAtHead at hcon
      rw [Bool.and_eq_true] at hcon
      obtain ⟨_, hsuf⟩ := hcon
      cases hdp : dropCaseI w (c :: rest) with
      | none => rw [hdp] at hsuf; exact Bool.false_ne_true hsuf
      | some suffix => rw [hdp] at h1; exact Bool.false_ne_true h1

/-- C9: `DetectTool` is a whole-word matcher — when every tool name occurs
only as a proper substring of a longer word the result is empty; when no
tool name occurs at all the result is empty; and when a tool's whole-word
mention strictly precedes every other tool's mention the earliest-mentioned
tool is returned. -/
theorem detectTool_spec (message : String) :
    ((∀ w ∈ toolWords, occursOnlyInsideWords w.data none message.data = true) →
      DetectTool message = "") ∧
    ((∀ w ∈ toolWords, noOccurrence w.data message.data = true) →
      DetectTool message = "") ∧
    (∀ t ∈ toolWords, ∀ i, wordIndex t message = some i →
      (∀ t' ∈ toolWords, t' ≠ t → posLt i (wordIndex t' message) = true) →
      DetectTool message = t) := by
  refine ⟨?_, ?_, ?_⟩
  · intro h
    have h1 := findWordIdx_none_of_inside none 0 message.data
      (h "claude" (by decide))
    have h2 := findWordIdx_none_of_inside none 0 message.data
      (h "codex" (by decide))
    have h3 := findWordIdx_none_of_inside none 0 message.data
      (h "opencode" (by decide))
    simp [DetectTool, wordIndex, h1, h2, h3]
  · intro h
    have h1 := findWordIdx_none_of_noOcc none 0 message.data
      (h "claude" (by decide))
    have h2 := findWordIdx_none_of_noOcc none 0 message.data
      (h "codex" (by decide))
    have h3 := findWordIdx_none_of_noOcc none 0 message.data
      (h "opencode" (by decide))
    simp [DetectTool, wordIndex, h1, h2, h3]
  · intro t ht i hi hlt
    have hmem : t = "claude" ∨ t = "codex" ∨ t = "opencode" := by
      simpa [toolWords] using ht
    rcases hmem with rfl | rfl | rfl
    · unfold DetectTool
      cases hcx : wordIndex "codex" message with
      | none =>
        cases hop : wordIndex "opencode" message with
        | none => simp [List.foldl_cons, hi, hcx, hop]
        | some j =>
          have ho := hlt "opencode" (by decide) (by decide)
          rw [hop] at ho
          simp only [posLt, decide_eq_true_eq] at ho
          simp [List.foldl_cons, hi, hcx, hop, if_neg (by omega : ¬ j < i)]
      | some j =>
        have hx := hlt "codex" (by decide) (by decide)
        rw [hcx] at hx
        simp only [posLt, decide_eq_true_eq] at hx
        cases hop : wordIndex "opencode" message with
        | none => simp [List.foldl_cons, hi, hcx, hop, if_neg (by omega : ¬ j < i)]
        | some k =>
          have ho := hlt "opencode" (by decide) (by decide)
          rw [hop] at ho
          simp only [posLt, decide_eq_true_eq] at ho
          simp [List.foldl_cons, hi, hcx, hop, if_neg (by omega : ¬ j < i),
            if_neg (by omega : ¬ k < i)]
    · unfold DetectTool
      cases hcl : wordIndex "claude" message with
      | none =>
        cases hop : wordIndex "opencode" message with
        | none => simp [List.foldl_cons, hi, hcl, hop]
        | some k =>
          have ho := hlt "opencode" (by decide) (by decide)
          rw [hop] at ho
          simp only [posLt, decide_eq_true_eq] at ho
          simp [List.foldl_cons, hi, hcl, hop, if_neg (by omega : ¬ k < i)]
      | some j =>
        have hc := hlt "claude" (by decide) (by decide)
        rw [hcl] at hc
        simp only [posLt, decide_eq_true_eq] at hc
        cases hop : wordIndex "opencode" message with
        | none => simp [List.foldl_cons, hi, hcl, hop, if_pos (by omega : i < j)]
        | some k =>
          have ho := hlt "opencode" (by decide) (by decide)
          rw [hop] at ho
          simp only [posLt, decide_eq_true_eq] at ho
          simp [List.foldl_cons, hi, hcl, hop, if_pos (by omega : i < j),
            if_neg (by omega : ¬ k < i)]
    · unfold DetectTool
      cases hcl : wordIndex "claude" message with
      | none =>
        cases hcx : wordIndex "codex" message with
        | none => simp [List.foldl_cons, hi, hcl, hcx]
        | some k =>
          have hx := hlt "codex" (by decide) (by decide)
          rw [hcx] at hx
          simp only [posLt, decide_eq_true_eq] at hx
          simp [List.foldl_cons, hi, hcl, hcx, if_pos (by omega : i < k)]
      | some j =>
        have hc := hlt "claude" (by decide) (by decide)
        rw [hcl] at hc
        simp only [posLt, decide_eq_true_eq] at hc
        cases hcx : wordIndex "codex" message with
        | none => simp [List.foldl_cons, hi, hcl, hcx, if_pos (by omega : i < j)]
        | some k =>
          have hx := hlt "codex" (by decide) (by decide)
          rw [hcx] at hx
          simp only [posLt, decide_eq_true_eq] at hx
          by_cases hkj : k < j
          · simp [List.foldl_cons, hi, hcl, hcx, if_pos hkj, if_pos (by omega : i < k)]
          · simp [List.foldl_cons, hi, hcl, hcx, if_neg hkj, if_pos (by omega : i < j)]

/-- C9 witness: `Codex` mentioned first (case-insensitively) wins over a
later `claude`; tool names occurring only inside longer words are not
detected; a message without any tool name yields the empty string. -/
theorem detectTool_spec_witness :
    DetectTool "use Codex for this, claude too" = "codex" ∧
    DetectTool "myclaudette codexify opencoded" = "" ∧
    DetectTool "hello world" = "" := by
  refine ⟨?_, ?_, ?_⟩
  · exact (detectTool_spec "use Codex for this, claude too").2.2 "codex" (by decide)
      4 (by decide) (by decide)
  · exact (detectTool_spec "myclaudette codexify opencoded").1 (by decide)
  · exact (detectTool_spec "hello world").2.1 (by decide)

/-- C8 counterexample: for a reply wrapping a three-level payload in prose,
`extractJSON` does not extract the outermost balanced bracket block — it
returns an inner block, because the raw regex admits at most one nesting
level. -/
theorem extractJSON_counterexample :
    planReply = "note " ++ planReplyOuter ++ " end" ∧
    extractJSON planReply = "\x7b\"b\":\x7b\"c\":1\x7d\x7d" ∧
    extractJSON planReply ≠ planReplyOuter := by decide

/-- C8 amended: `ParsePlanResponse` never fails — when decoding of the
extracted payload fails it returns the degraded plan whose summary is the
raw reply and whose files list is empty, with nil error; before decoding it
extracts the fenced block if the markdown fence pattern matches, otherwise
the first brace block nested at most two levels (which for deeper payloads
may be an inner block rather than the outermost one), otherwise it passes
the reply through unchanged. -/
theorem parsePlanResponse_amended (decode : String → Option Plan)
    (tool task response : String) :
    (ParsePlanResponse decode tool task response).isOk = true ∧
    (decode (extractJSON response) = none →
      ParsePlanResponse decode tool task response =
        .ok { tool := tool, task := task, summary := response, files := [],
              dependencies := [], risks := [], confidence := 0 }) ∧
    (∀ plan, decode (extractJSON response) = some plan →
      ParsePlanResponse decode tool task response =
        .ok { plan with tool := tool, task := task }) ∧
    (fenceFind response.data = none → braceFind response.data = none →
      extractJSON response = response) := by
  refine ⟨?_, ?_, ?_, ?_⟩
  · unfold ParsePlanResponse
    cases decode (extractJSON response) <;> rfl
  · intro h
    unfold ParsePlanResponse
    rw [h]
  · intro plan h
    unfold ParsePlanResponse
    rw [h]
  · intro h1 h2
    unfold extractJSON
    rw [h1, h2]

/-- C8 amended witness: a plain-prose reply (no braces, no fences) decodes
to nothing and degrades to the raw-text plan with empty files and nil
error. -/
theorem parsePlanResponse_amended_witness :
    ParsePlanResponse (fun _ => none) "claude" "fix the bug" "just some prose" =
      .ok { tool := "claude", task := "fix the bug", summary := "just some prose",
            files := [], dependencies := [], risks := [], confidence := 0 } ∧
    extractJSON "just some prose" = "just some prose" :=
  ⟨(parsePlanResponse_amended (fun _ => none) "claude" "fix the bug"
      "just some prose").2.1 rfl,
    (parsePlanResponse_amended (fun _ => none) "claude" "fix the bug"
      "just some prose").2.2.2 (by decide) (by decide)⟩

end AIDispatcher
